import Mathlib

/-!
Shallow embedding of the hypercube renderer (`src/index.js` and its edges-only
variant) together with proofs about its topology generator, rotation and
projection pipeline, depth-range tracking and frame-delta computation.
-/

namespace Cube

/-- `const maxDims = 4;` -/
def maxDims : ℕ := 4

/-- `numVerts(numDims) = Math.pow(2, numDims)` (for an explicitly supplied
dimension argument). -/
def numVerts (numDims : ℕ) : ℕ := 2 ^ numDims

/-- `vert(i)`: for each axis slot `d` in `0..maxDims`, push `(i >> d) & 1`
mapped `0 → -1`, `1 → 1` when `d < numDims`, else push `0`. -/
def vert (numDims : ℕ) (i : ℕ) : List ℤ :=
  (List.range maxDims).map (fun d =>
    if d < numDims then (if (i >>> d) &&& 1 = 0 then (-1 : ℤ) else 1) else 0)

/-- `edges()`: for each vertex index `i` and axis `d < numDims`, let
`j = i ^ (1 << d)`; yield `[i, j]` when `i < j`. -/
def edges (numDims : ℕ) : List (ℕ × ℕ) :=
  ((List.range (numVerts numDims)).map (fun i =>
    (List.range numDims).filterMap (fun d =>
      let j := i ^^^ (1 <<< d)
      if i < j then some (i, j) else none))).flatten

/-- `faces()`: for each vertex index `i`, axis `a < numDims` and axis `b` with
`a < b < numDims`, let `j = i^(1<<a)`, `k = i^(1<<b)`, `l = i^(1<<a)^(1<<b)`;
yield `[i, j, l, k]` when `i < j && j < k && k < l`. -/
def faces (numDims : ℕ) : List (ℕ × ℕ × ℕ × ℕ) :=
  ((List.range (numVerts numDims)).map (fun i =>
    ((List.range numDims).map (fun a =>
      let j := i ^^^ (1 <<< a)
      ((List.range numDims).drop (a+1)).filterMap (fun b =>
        let k := i ^^^ (1 <<< b)
        let l := i ^^^ (1 <<< a) ^^^ (1 <<< b)
        if i < j ∧ j < k ∧ k < l then some (i, j, l, k) else none))).flatten)).flatten

/-- Reorder an emitted face loop `(i,j,l,k)` into its sorted quadruple
`(i,j,k,l)`. -/
def faceSorted (q : ℕ × ℕ × ℕ × ℕ) : ℕ × ℕ × ℕ × ℕ :=
  (q.1, q.2.1, q.2.2.2, q.2.2.1)

/-- Modelled from the spec: the faces of the `d`-cube, one canonical sorted
quadruple `(i, i^(1<<a), i^(1<<b), i^(1<<a)^(1<<b))` for every pair of axes
`a < b < d` and every base vertex `i` whose bits `a` and `b` are both clear. -/
def specFaces (d : ℕ) : List (ℕ × ℕ × ℕ × ℕ) :=
  ((List.range (2 ^ d)).map (fun i =>
    ((List.range d).map (fun a =>
      ((List.range d).drop (a+1)).filterMap (fun b =>
        if (i >>> a) &&& 1 = 0 ∧ (i >>> b) &&& 1 = 0 then
          some (i, i ^^^ (1 <<< a), i ^^^ (1 <<< b), i ^^^ (1 <<< a) ^^^ (1 <<< b))
        else none))).flatten)).flatten

end Cube

namespace Cube

/-- C1: for every dimension `d ∈ {2,3,4}` the edges generator yields exactly
`d * 2^(d-1)` pairs `(i,j)`, each with `i < j` and `j = i XOR 2^axis` for some
axis `< d`, and for `d = 2` the yielded sequence is exactly
`(0,1),(0,2),(1,3),(2,3)`. -/
theorem edges_spec :
    (∀ d ∈ ([2, 3, 4] : List ℕ),
      (edges d).length = d * 2 ^ (d - 1) ∧
      (∀ p ∈ edges d, p.1 < p.2 ∧ ∃ ax ∈ List.range d, p.2 = p.1 ^^^ (1 <<< ax))) ∧
    edges 2 = [(0, 1), (0, 2), (1, 3), (2, 3)] := by
  decide

/-- Witness for `edges_spec` at `d = 2`. -/
theorem edges_spec_witness :
    (edges 2).length = 2 * 2 ^ (2 - 1) :=
  (edges_spec.1 2 (by decide)).1

/-- C2: for every dimension `d ∈ {2,3,4}` and index `i < 2^d`, `vert` returns a
4-tuple whose first `d` components are `-1` when bit `(i >> axis) & 1` is `0`
and `1` when it is `1` and whose remaining components are `0`; exactly `d`
components are `±1` and the rest are `0`; distinct indices yield distinct
tuples; and `vert 3` at `d = 2` is `(1,1,0,0)` while `vert 5` at `d = 3` is
`(1,-1,1,0)`. -/
theorem vert_spec :
    (∀ d ∈ ([2, 3, 4] : List ℕ), ∀ i < 2 ^ d,
      (vert d i).length = 4 ∧
      (∀ ax < 4, (vert d i).getD ax 0 =
        if ax < d then (if (i >>> ax) &&& 1 = 0 then (-1 : ℤ) else 1) else 0) ∧
      (vert d i).countP (fun x => decide (x = 1 ∨ x = -1)) = d ∧
      (vert d i).countP (fun x => decide (x = 0)) = 4 - d ∧
      (∀ i' < 2 ^ d, vert d i' = vert d i → i' = i)) ∧
    vert 2 3 = [1, 1, 0, 0] ∧ vert 3 5 = [1, -1, 1, 0] := by
  decide

/-- Witness for `vert_spec` at `d = 3`, `i = 5`. -/
theorem vert_spec_witness :
    (vert 3 5).countP (fun x => decide (x = 1 ∨ x = -1)) = 3 :=
  (vert_spec.1 3 (by decide) 5 (by decide)).2.2.1

/-- C3: for every dimension `d ∈ {2,3,4}` the faces generator emits the
ordered loop `(i,j,l,k)` only when `i < j < k < l`, each face of the `d`-cube
is emitted exactly once (the emitted loops, reordered into sorted quadruples,
enumerate the faces of the `d`-cube without repetition), and the number of
faces emitted is `C(d,2) * 2^(d-2)`. -/
theorem faces_spec :
    ∀ d ∈ ([2, 3, 4] : List ℕ),
      (∀ q ∈ faces d, q.1 < q.2.1 ∧ q.2.1 < q.2.2.2 ∧ q.2.2.2 < q.2.2.1) ∧
      (faces d).map faceSorted = specFaces d ∧
      (specFaces d).Nodup ∧
      (faces d).length = Nat.choose d 2 * 2 ^ (d - 2) := by
  decide

/-- Witness for `faces_spec` at `d = 3`. -/
theorem faces_spec_witness :
    (faces 3).length = Nat.choose 3 2 * 2 ^ (3 - 2) :=
  (faces_spec 3 (by decide)).2.2.2

/-- C4 counterexample: the spec example says `faces(3)` yields exactly 3
faces, but the generator yields 6 of them. -/
theorem faces_count_counterexample :
    (faces 3).length = 6 ∧ (6 : ℕ) ≠ 3 := by
  decide

/-- C4 (amended): the faces generator yields exactly 6 faces when the
dimension is 3 and exactly 24 faces when the dimension is 4. -/
theorem faces_count :
    (faces 3).length = 6 ∧ (faces 4).length = 24 := by
  decide

end Cube

namespace Cube

/-- `const camDistZ = 2;` -/
def camDistZ : ℝ := 2

/-- `const camDistW = 2;` -/
def camDistW : ℝ := 2

/-- `const cubeDistZ = camDistZ*2.5;` -/
def cubeDistZ : ℝ := camDistZ * 2.5

/-- `const cubeDistW = camDistW*2.5;` -/
def cubeDistW : ℝ := camDistW * 2.5

/-- A JS number array viewed as a total map from indices to reals; `vert`'s
result with `0` beyond its four entries. -/
def vertR (numDims i : ℕ) : ℕ → ℝ :=
  fun k => ((vert numDims i).getD k 0 : ℤ)

/-- One in-place plane rotation of the `rotate` loop body:
`v[i] = a*cos(t) - b*sin(t); v[j] = a*sin(t) + b*cos(t)` where
`[a,b] = [v[i], v[j]]` are read before the writes. -/
noncomputable def rotStep (θ : ℝ) (i j : ℕ) (v : ℕ → ℝ) : ℕ → ℝ :=
  fun k =>
    if k = i then v i * Real.cos θ - v j * Real.sin θ
    else if k = j then v i * Real.sin θ + v j * Real.cos θ
    else v k

/-- The axis pairs visited by `rotate`'s nested loops:
`for (i=0;i<d-1;i++) for (j=i+1;j<d;j++)`, in order. -/
def planes (d : ℕ) : List (ℕ × ℕ) :=
  ((List.range (d - 1)).map (fun i =>
    ((List.range d).drop (i + 1)).map (fun j => (i, j)))).flatten

/-- The body of `rotate`: apply the plane rotations in sequence, with
`rotIndex` selecting the speed `state.rotateSpeed[rotIndex]` and angle
`speed * time / 1000`. -/
noncomputable def rotateAux (speeds : ℕ → ℝ) (time : ℝ) :
    List (ℕ × ℕ) → ℕ → (ℕ → ℝ) → ℕ → ℝ
  | [], _, v => v
  | p :: rest, ridx, v =>
      rotateAux speeds time rest (ridx + 1)
        (rotStep (speeds ridx * time / 1000) p.1 p.2 v)

/-- `rotate([x,y,z,w])` with the module state made explicit: the clamped time
is `Math.max(0, state.t - 100)` and the speeds array is a parameter. -/
noncomputable def rotate (d : ℕ) (speeds : ℕ → ℝ) (tclock : ℝ)
    (v : ℕ → ℝ) : ℕ → ℝ :=
  rotateAux speeds (max 0 (tclock - 100)) (planes d) 0 v

/-- `translate(v)`: `z += cubeDistZ; w += cubeDistW`. -/
def translate (v : ℕ → ℝ) : ℕ → ℝ :=
  fun k =>
    if k = 2 then v 2 + cubeDistZ
    else if k = 3 then v 3 + cubeDistW
    else v k

/-- `transform(v) = translate(rotate(v))`. -/
noncomputable def transform (d : ℕ) (speeds : ℕ → ℝ) (tclock : ℝ)
    (v : ℕ → ℝ) : ℕ → ℝ :=
  translate (rotate d speeds tclock v)

/-- `toSpace([x,y,z,w]) = [x/w*camDistW, y/w*camDistW, z/w*camDistW]`. -/
noncomputable def toSpace (v : ℕ → ℝ) : ℕ → ℝ :=
  fun k => if k < 3 then v k / v 3 * camDistW else 0

/-- `toPlane([x,y,z]) = [x/z*camDistZ, y/z*camDistZ]`. -/
noncomputable def toPlane (v : ℕ → ℝ) : ℕ → ℝ :=
  fun k => if k < 2 then v k / v 2 * camDistZ else 0

/-- Sum of the squares of the four coordinate slots. -/
def sq4 (v : ℕ → ℝ) : ℝ := v 0 ^ 2 + v 1 ^ 2 + v 2 ^ 2 + v 3 ^ 2

lemma rot2_sq (θ a b : ℝ) :
    (a * Real.cos θ - b * Real.sin θ) ^ 2 +
      (a * Real.sin θ + b * Real.cos θ) ^ 2 = a ^ 2 + b ^ 2 := by
  linear_combination (a ^ 2 + b ^ 2) * Real.sin_sq_add_cos_sq θ

lemma sq4_rotStep (θ : ℝ) (i j : ℕ) (hij : i ≠ j) (hi : i < 4) (hj : j < 4)
    (v : ℕ → ℝ) : sq4 (rotStep θ i j v) = sq4 v := by
  interval_cases i <;> interval_cases j <;>
    first
      | exact absurd rfl hij
      | (simp only [sq4, rotStep]
         norm_num
         linarith [rot2_sq θ (v 0) (v 1), rot2_sq θ (v 0) (v 2),
           rot2_sq θ (v 0) (v 3), rot2_sq θ (v 1) (v 2),
           rot2_sq θ (v 1) (v 3), rot2_sq θ (v 2) (v 3)])

lemma sq4_rotateAux (speeds : ℕ → ℝ) (time : ℝ) :
    ∀ (L : List (ℕ × ℕ)), (∀ p ∈ L, p.1 ≠ p.2 ∧ p.1 < 4 ∧ p.2 < 4) →
    ∀ (ridx : ℕ) (v : ℕ → ℝ),
      sq4 (rotateAux speeds time L ridx v) = sq4 v := by
  intro L
  induction L with
  | nil => intro _ ridx v; rfl
  | cons p rest ih =>
      intro hL ridx v
      obtain ⟨hp, hrest⟩ := List.forall_mem_cons.mp hL
      have hstep : rotateAux speeds time (p :: rest) ridx v =
          rotateAux speeds time rest (ridx + 1)
            (rotStep (speeds ridx * time / 1000) p.1 p.2 v) := rfl
      rw [hstep, ih hrest, sq4_rotStep _ _ _ hp.1 hp.2.1 hp.2.2]

lemma planes_valid : ∀ d ∈ ([2, 3, 4] : List ℕ),
    ∀ p ∈ planes d, p.1 ≠ p.2 ∧ p.1 < 4 ∧ p.2 < 4 := by
  decide

lemma sq4_rotate (d : ℕ) (hd : d ∈ ([2, 3, 4] : List ℕ)) (speeds : ℕ → ℝ)
    (tclock : ℝ) (v : ℕ → ℝ) : sq4 (rotate d speeds tclock v) = sq4 v :=
  sq4_rotateAux speeds _ (planes d) (planes_valid d hd) 0 v

lemma vert_getD (n i k : ℕ) (hk : k < 4) : (vert n i).getD k 0 =
    if k < n then (if (i >>> k) &&& 1 = 0 then (-1 : ℤ) else 1) else 0 := by
  interval_cases k <;> rfl

lemma vert_getD_high (n i k : ℕ) (hk : 4 ≤ k) : (vert n i).getD k 0 = 0 := by
  apply List.getD_eq_default
  simp [vert, maxDims]
  omega

lemma vertR_cases (n i k : ℕ) :
    vertR n i k = -1 ∨ vertR n i k = 0 ∨ vertR n i k = 1 := by
  unfold vertR
  rcases Nat.lt_or_ge k 4 with hk | hk
  · rw [vert_getD n i k hk]
    split_ifs <;> norm_num
  · rw [vert_getD_high n i k hk]
    norm_num

lemma vertR_sq_le (n i k : ℕ) : (vertR n i k) ^ 2 ≤ 1 := by
  rcases vertR_cases n i k with h | h | h <;> rw [h] <;> norm_num

lemma sq4_vertR_le (n i : ℕ) : sq4 (vertR n i) ≤ 4 := by
  have h0 := vertR_sq_le n i 0
  have h1 := vertR_sq_le n i 1
  have h2 := vertR_sq_le n i 2
  have h3 := vertR_sq_le n i 3
  unfold sq4
  linarith

lemma rotate_coord_ge (d : ℕ) (hd : d ∈ ([2, 3, 4] : List ℕ)) (speeds : ℕ → ℝ)
    (tclock : ℝ) (i k : ℕ) (hk : k < 4) :
    -2 ≤ rotate d speeds tclock (vertR d i) k := by
  have hsq : sq4 (rotate d speeds tclock (vertR d i)) ≤ 4 := by
    rw [sq4_rotate d hd]
    exact sq4_vertR_le d i
  set w := rotate d speeds tclock (vertR d i) with hw
  have hk2 : (w k) ^ 2 ≤ 4 := by
    have h0 := sq_nonneg (w 0)
    have h1 := sq_nonneg (w 1)
    have h2 := sq_nonneg (w 2)
    have h3 := sq_nonneg (w 3)
    unfold sq4 at hsq
    interval_cases k <;> linarith
  nlinarith [sq_nonneg (w k + 2)]

/-- C5: for every dimension `d ∈ {2,3,4}`, vertex index `i < 2^d`, speed
assignment and clock value, the transformed vertex
`transform(vert(i)) = translate(rotate(vert(i)))` has strictly positive `z`
and `w` coordinates, and the `z` coordinate of its `toSpace` image is also
strictly positive, so neither the 4D→3D division by `w` nor the 3D→2D
division by `z` divides by zero. -/
theorem transform_pos (d : ℕ) (hd : d ∈ ([2, 3, 4] : List ℕ)) (i : ℕ)
    (_hi : i < 2 ^ d) (speeds : ℕ → ℝ) (tclock : ℝ) :
    0 < transform d speeds tclock (vertR d i) 2 ∧
    0 < transform d speeds tclock (vertR d i) 3 ∧
    0 < toSpace (transform d speeds tclock (vertR d i)) 2 := by
  have h2 := rotate_coord_ge d hd speeds tclock i 2 (by norm_num)
  have h3 := rotate_coord_ge d hd speeds tclock i 3 (by norm_num)
  have hz : 0 < transform d speeds tclock (vertR d i) 2 := by
    simp only [transform, translate, cubeDistZ, camDistZ]
    norm_num
    linarith
  have hw : 0 < transform d speeds tclock (vertR d i) 3 := by
    simp only [transform, translate, cubeDistW, camDistW]
    norm_num
    linarith
  refine ⟨hz, hw, ?_⟩
  simp only [toSpace, camDistW]
  norm_num
  positivity

/-- Witness for `transform_pos` at `d = 2`, `i = 0`, zero speeds, clock 0. -/
theorem transform_pos_witness :
    0 < transform 2 (fun _ => 0) 0 (vertR 2 0) 2 ∧
    0 < transform 2 (fun _ => 0) 0 (vertR 2 0) 3 ∧
    0 < toSpace (transform 2 (fun _ => 0) 0 (vertR 2 0)) 2 :=
  transform_pos 2 (by decide) 0 (by decide) (fun _ => 0) 0

lemma rotStep_zero_angle (i j : ℕ) (v : ℕ → ℝ) : rotStep 0 i j v = v := by
  funext k
  unfold rotStep
  split_ifs with h1 h2
  · subst h1; simp
  · subst h2; simp
  · rfl

lemma rotateAux_zero (speeds : ℕ → ℝ) (hs : ∀ k, speeds k = 0) (time : ℝ) :
    ∀ (L : List (ℕ × ℕ)) (ridx : ℕ) (v : ℕ → ℝ),
      rotateAux speeds time L ridx v = v := by
  intro L
  induction L with
  | nil => intro ridx v; rfl
  | cons p rest ih =>
      intro ridx v
      have hstep : rotateAux speeds time (p :: rest) ridx v =
          rotateAux speeds time rest (ridx + 1)
            (rotStep (speeds ridx * time / 1000) p.1 p.2 v) := rfl
      rw [hstep, hs ridx, zero_mul, zero_div, rotStep_zero_angle]
      exact ih (ridx + 1) v

lemma rotate_zero (d : ℕ) (speeds : ℕ → ℝ) (hs : ∀ k, speeds k = 0)
    (tclock : ℝ) (v : ℕ → ℝ) : rotate d speeds tclock v = v :=
  rotateAux_zero speeds hs _ (planes d) 0 v

/-- C7: if every rotation-plane velocity is `0` then for every 4-tuple `v`,
dimension and clock value, `rotate` is the identity and `transform v` equals
`translate v` alone. -/
theorem rotate_identity_of_zero_speeds (d : ℕ) (speeds : ℕ → ℝ)
    (hs : ∀ k, speeds k = 0) (tclock : ℝ) (v : ℕ → ℝ) :
    rotate d speeds tclock v = v ∧
    transform d speeds tclock v = translate v := by
  refine ⟨rotate_zero d speeds hs tclock v, ?_⟩
  unfold transform
  rw [rotate_zero d speeds hs tclock v]

/-- Witness for `rotate_identity_of_zero_speeds` at `d = 4`, clock 7,
vertex 5. -/
theorem rotate_identity_of_zero_speeds_witness :
    rotate 4 (fun _ => 0) 7 (vertR 4 5) = vertR 4 5 ∧
    transform 4 (fun _ => 0) 7 (vertR 4 5) = translate (vertR 4 5) :=
  rotate_identity_of_zero_speeds 4 (fun _ => 0) (fun _ => rfl) 7 (vertR 4 5)

lemma rotStep_apply_other (θ : ℝ) (i j m : ℕ) (hi : m ≠ i) (hj : m ≠ j)
    (v : ℕ → ℝ) : rotStep θ i j v m = v m := by
  unfold rotStep
  rw [if_neg hi, if_neg hj]

lemma rotateAux_apply_untouched (speeds : ℕ → ℝ) (time : ℝ) (m : ℕ) :
    ∀ (L : List (ℕ × ℕ)), (∀ p ∈ L, p.1 ≠ m ∧ p.2 ≠ m) →
    ∀ (ridx : ℕ) (v : ℕ → ℝ), rotateAux speeds time L ridx v m = v m := by
  intro L
  induction L with
  | nil => intro _ ridx v; rfl
  | cons p rest ih =>
      intro hL ridx v
      obtain ⟨hp, hrest⟩ := List.forall_mem_cons.mp hL
      have hstep : rotateAux speeds time (p :: rest) ridx v =
          rotateAux speeds time rest (ridx + 1)
            (rotStep (speeds ridx * time / 1000) p.1 p.2 v) := rfl
      rw [hstep, ih hrest, rotStep_apply_other _ _ _ _
        (fun h => hp.1 h.symm) (fun h => hp.2 h.symm)]

/-- C6 counterexample: with dimension 3 (so the unused axis `w` of the vertex
is exactly 0), zero speeds and clock 0, the 4D→3D stage is still computed: it
divides by the translated `w = 5` and changes the `x` coordinate from `-1` to
`-2/5`, so the stage is not bypassed. -/
theorem toSpace_bypass_counterexample :
    vertR 3 0 3 = 0 ∧
    toSpace (transform 3 (fun _ => 0) 0 (vertR 3 0)) 0 ≠
      transform 3 (fun _ => 0) 0 (vertR 3 0) 0 := by
  have hv : vert 3 0 = [-1, -1, -1, 0] := by decide
  have hrot := rotate_zero 3 (fun _ => 0) (fun _ => rfl) 0 (vertR 3 0)
  have hv0 : vertR 3 0 0 = -1 := by unfold vertR; rw [hv]; norm_num
  have hv3 : vertR 3 0 3 = 0 := by unfold vertR; rw [hv]; norm_num
  refine ⟨hv3, ?_⟩
  unfold transform
  rw [hrot]
  simp only [toSpace, translate, camDistW, cubeDistW]
  norm_num [hv0, hv3]

/-- C6 (amended): for dimension `d ∈ {2,3}` the unused `w` axis is 0 through
rotation, but the 4D→3D stage is not bypassed: `translate` unconditionally
offsets `w` by `cubeDistW = 5`, so `toSpace` always computes its division with
divisor exactly `cubeDistW` and acts on `x,y,z` as uniform scaling by
`camDistW / cubeDistW`; no division by zero occurs. -/
theorem toSpace_stage_low_dims (d : ℕ) (hd : d ∈ ([2, 3] : List ℕ)) (i : ℕ)
    (speeds : ℕ → ℝ) (tclock : ℝ) :
    rotate d speeds tclock (vertR d i) 3 = 0 ∧
    transform d speeds tclock (vertR d i) 3 = cubeDistW ∧
    (∀ k < 3, toSpace (transform d speeds tclock (vertR d i)) k =
      transform d speeds tclock (vertR d i) k * (camDistW / cubeDistW)) := by
  have hd' : d = 2 ∨ d = 3 := by simpa using hd
  have hv3 : vertR d i 3 = 0 := by
    unfold vertR
    rw [vert_getD d i 3 (by norm_num)]
    rcases hd' with h | h <;> subst h <;> norm_num
  have hplanes : ∀ p ∈ planes d, p.1 ≠ 3 ∧ p.2 ≠ 3 := by
    rcases hd' with h | h <;> subst h <;> decide
  have hrot3 : rotate d speeds tclock (vertR d i) 3 = 0 := by
    unfold rotate
    rw [rotateAux_apply_untouched _ _ 3 (planes d) hplanes 0 (vertR d i), hv3]
  have hw : transform d speeds tclock (vertR d i) 3 = cubeDistW := by
    simp only [transform, translate]
    norm_num [hrot3]
  refine ⟨hrot3, hw, ?_⟩
  intro k hk
  simp only [toSpace]
  rw [if_pos hk]
  have h3 : transform d speeds tclock (vertR d i) 3 = cubeDistW := hw
  rw [h3]
  simp only [camDistW, cubeDistW]
  ring

/-- Witness for `toSpace_stage_low_dims` at `d = 3`, `i = 0`, zero speeds,
clock 0. -/
theorem toSpace_stage_low_dims_witness :
    transform 3 (fun _ => 0) 0 (vertR 3 0) 3 = cubeDistW :=
  (toSpace_stage_low_dims 3 (by decide) 0 (fun _ => 0) 0).2.1

end Cube

namespace Cube

/-- One per-dimension entry of `zRange`: the fields `min` and `max`, both
absent (`{}`) until the first `updateZRange` call. -/
structure ZRangeEntry where
  min : Option ℝ
  max : Option ℝ

/-- `updateZRange(z)` acting on the entry for the current dimension:
`zRange[d].min = min == null ? z : Math.min(min, z)` and likewise for `max`. -/
noncomputable def updateZRangeEntry (z : ℝ) (r : ZRangeEntry) : ZRangeEntry where
  min := some (match r.min with | none => z | some m => Min.min m z)
  max := some (match r.max with | none => z | some m => Max.max m z)

/-- The full `zRange` table indexed by dimension; `updateZRange` writes only
the entry of the current dimension `d`. -/
noncomputable def updateZRange (d : ℕ) (z : ℝ) (zr : ℕ → ZRangeEntry) :
    ℕ → ZRangeEntry :=
  fun d' => if d' = d then updateZRangeEntry z (zr d) else zr d'

/-- C8: every `updateZRange(z)` call only widens the recorded depth range of
the current dimension: the new `min` is at most any previous `min` (and is set
when there was none), the new `max` is at least any previous `max`, the new
`min` is at most `z`, the new `max` is at least `z`, `min ≤ max` holds once
populated, and other dimensions are untouched. -/
theorem updateZRange_widens (d : ℕ) (z : ℝ) (zr : ℕ → ZRangeEntry) :
    (∀ m, (zr d).min = some m →
      (updateZRange d z zr d).min = some (Min.min m z)) ∧
    ((zr d).min = none → (updateZRange d z zr d).min = some z) ∧
    (∀ M, (zr d).max = some M →
      (updateZRange d z zr d).max = some (Max.max M z)) ∧
    ((zr d).max = none → (updateZRange d z zr d).max = some z) ∧
    (∀ m', (updateZRange d z zr d).min = some m' → m' ≤ z) ∧
    (∀ M', (updateZRange d z zr d).max = some M' → z ≤ M') ∧
    (∀ m' M', (updateZRange d z zr d).min = some m' →
      (updateZRange d z zr d).max = some M' → m' ≤ M') ∧
    (∀ d', d' ≠ d → updateZRange d z zr d' = zr d') := by
  have hdd : updateZRange d z zr d = updateZRangeEntry z (zr d) := by
    unfold updateZRange
    rw [if_pos rfl]
  refine ⟨?_, ?_, ?_, ?_, ?_, ?_, ?_, ?_⟩
  · intro m hm
    rw [hdd]
    unfold updateZRangeEntry
    rw [hm]
  · intro hm
    rw [hdd]
    unfold updateZRangeEntry
    rw [hm]
  · intro M hM
    rw [hdd]
    unfold updateZRangeEntry
    rw [hM]
  · intro hM
    rw [hdd]
    unfold updateZRangeEntry
    rw [hM]
  · intro m' hm'
    rw [hdd] at hm'
    unfold updateZRangeEntry at hm'
    rcases h : (zr d).min with _ | m <;> rw [h] at hm' <;>
      simp only [Option.some.injEq] at hm'
    · rw [← hm']
    · rw [← hm']
      exact min_le_right m z
  · intro M' hM'
    rw [hdd] at hM'
    unfold updateZRangeEntry at hM'
    rcases h : (zr d).max with _ | M <;> rw [h] at hM' <;>
      simp only [Option.some.injEq] at hM'
    · rw [← hM']
    · rw [← hM']
      exact le_max_right M z
  · intro m' M' hm' hM'
    rw [hdd] at hm' hM'
    unfold updateZRangeEntry at hm' hM'
    simp only [Option.some.injEq] at hm' hM'
    have h1 : m' ≤ z := by
      rcases h : (zr d).min with _ | m <;> rw [h] at hm'
      · rw [← hm']
      · rw [← hm']
        exact min_le_right m z
    have h2 : z ≤ M' := by
      rcases h : (zr d).max with _ | M <;> rw [h] at hM'
      · rw [← hM']
      · rw [← hM']
        exact le_max_right M z
    linarith
  · intro d' hd'
    unfold updateZRange
    rw [if_neg hd']

/-- Witness for `updateZRange_widens` at `d = 3`, `z = 0`, starting from a
populated entry `(min, max) = (1, 2)`. -/
theorem updateZRange_widens_witness :
    (updateZRange 3 0 (fun _ => ⟨some 1, some 2⟩) 3).min = some (Min.min 1 0) :=
  (updateZRange_widens 3 0 (fun _ => ⟨some 1, some 2⟩)).1 1 rfl

/-- `tick(t)`: compute `dt` from the previous `lastTime` (0 on the first
frame, and also 0 when the stored `lastTime` is the falsy number 0), then
store `t` as the new `lastTime`. Returns `(dt, new lastTime)`. -/
noncomputable def tick (t : ℝ) (lastTime : Option ℝ) : ℝ × Option ℝ :=
  (match lastTime with
    | none => 0
    | some x => if x = 0 then 0 else t - x,
   some t)

/-- C9 counterexample: after a first frame with timestamp 0, the stored
`lastTime` is 0, which the truthiness test `if (lastTime)` treats as unset, so
the second frame at timestamp 5 computes delta 0 instead of `5 - 0 = 5`. -/
theorem tick_delta_counterexample :
    tick 0 none = (0, some 0) ∧
    (tick 5 (some 0)).1 = 0 ∧ (0 : ℝ) ≠ 5 - 0 := by
  refine ⟨rfl, ?_, by norm_num⟩
  simp [tick]

/-- C9 (amended): the first frame's computed delta is 0, and on every
subsequent frame the computed delta equals the current timestamp minus the
immediately preceding frame's timestamp provided that preceding timestamp is
nonzero; a preceding timestamp of exactly 0 is treated as unset by the JS
truthiness test, yielding delta 0 again. In all cases the current timestamp
is stored for the next frame. -/
theorem tick_delta (t x : ℝ) :
    (tick t none).1 = 0 ∧
    (x ≠ 0 → (tick t (some x)).1 = t - x) ∧
    (tick t (some 0)).1 = 0 ∧
    (tick t none).2 = some t ∧
    (tick t (some x)).2 = some t := by
  refine ⟨rfl, ?_, by simp [tick], rfl, rfl⟩
  intro hx
  simp [tick, hx]

/-- Witness for `tick_delta` at `t = 5`, previous timestamp `3`. -/
theorem tick_delta_witness : (tick 5 (some 3)).1 = 5 - 3 :=
  (tick_delta 5 3).2.1 (by norm_num)

end Cube

namespace Cube

/-- A JS array element access `v[i]`; out-of-range reads produce `undefined`
in JS, modelled by an explicit substitute value `dflt`. -/
def jsGet (v : List ℝ) (i : ℕ) (dflt : ℝ) : ℝ := v.getD i dflt

/-- `vecMinus(a, b) = [a[0]-b[0], a[1]-b[1], a[2]-b[2]]` (all accesses in
range for the 3-vectors it is applied to). -/
def vecMinus (a b : List ℝ) : List ℝ :=
  [jsGet a 0 0 - jsGet b 0 0, jsGet a 1 0 - jsGet b 1 0, jsGet a 2 0 - jsGet b 2 0]

/-- `vecCross(a, b)` exactly as written in the source: its second component is
`a[1]*b[3] - b[1]*a[3]`, reading index 3 of both arguments. -/
def vecCross (dflt : ℝ) (a b : List ℝ) : List ℝ :=
  [jsGet a 1 dflt * jsGet b 2 dflt - jsGet b 1 dflt * jsGet a 2 dflt,
   jsGet a 1 dflt * jsGet b 3 dflt - jsGet b 1 dflt * jsGet a 3 dflt,
   jsGet a 0 dflt * jsGet b 1 dflt - jsGet b 0 dflt * jsGet a 1 dflt]

/-- The standard 3D cross product, for comparison with `vecCross`. -/
def crossStd (a b : List ℝ) : List ℝ :=
  [jsGet a 1 0 * jsGet b 2 0 - jsGet a 2 0 * jsGet b 1 0,
   jsGet a 2 0 * jsGet b 0 0 - jsGet a 0 0 * jsGet b 2 0,
   jsGet a 0 0 * jsGet b 1 0 - jsGet a 1 0 * jsGet b 0 0]

/-- `vecDot(a, b) = a[0]*b[0] + a[1]*b[1] + a[2]*b[2]`. -/
def vecDot (a b : List ℝ) : ℝ :=
  jsGet a 0 0 * jsGet b 0 0 + jsGet a 1 0 * jsGet b 1 0 + jsGet a 2 0 * jsGet b 2 0

/-- `vecScalarTriple(a, b, c) = vecDot(vecCross(a, b), c)`. -/
def vecScalarTriple (dflt : ℝ) (a b c : List ℝ) : ℝ :=
  vecDot (vecCross dflt a b) c

/-- `sign(a)`: `-1`, `1` or `0`. -/
noncomputable def sign (a : ℝ) : ℤ :=
  if a < 0 then -1 else if a > 0 then 1 else 0

/-- `intersectLineTriangle(p,q,a,b,c)` with the early returns folded into
nested conditionals. -/
noncomputable def intersectLineTriangle (dflt : ℝ) (p q a b c : List ℝ) : Bool :=
  let pq := vecMinus q p
  let pa := vecMinus a p
  let pb := vecMinus b p
  let pc := vecMinus c p
  let m := vecCross dflt pq pc
  let u := vecDot pb m
  let v := -(vecDot pa m)
  if sign u ≠ sign v then false
  else
    let w := vecScalarTriple dflt pq pb pa
    if sign u ≠ sign w then false else true

/-- C10: for 3-element vectors the second component of `vecCross` reads index
3 of both arguments, which is out of bounds (the lookup returns `none` in a
total embedding); consequently `vecCross` does not compute the standard 3D
cross product, and `intersectLineTriangle`'s result depends on the value the
out-of-range access is taken to produce. -/
theorem vecCross_oob (a b : List ℝ) (ha : a.length = 3) (hb : b.length = 3) :
    a[3]? = none ∧ b[3]? = none ∧
    (∀ dflt, (vecCross dflt a b).getD 1 0 =
      jsGet a 1 dflt * jsGet b 3 dflt - jsGet b 1 dflt * jsGet a 3 dflt) ∧
    vecCross 0 [1, 1, 1] [0, 0, 1] ≠ crossStd [1, 1, 1] [0, 0, 1] ∧
    intersectLineTriangle 0 [0,0,0] [1,0,0] [1,0,0] [0,1,0] [0,1,0] = true ∧
    intersectLineTriangle 1 [0,0,0] [1,0,0] [1,0,0] [0,1,0] [0,1,0] = false := by
  refine ⟨?_, ?_, fun dflt => rfl, ?_, ?_, ?_⟩
  · rw [List.getElem?_eq_none]
    omega
  · rw [List.getElem?_eq_none]
    omega
  · simp only [vecCross, crossStd, jsGet, List.getD]
    norm_num
  · simp only [intersectLineTriangle, vecMinus, vecCross, vecDot,
      vecScalarTriple, jsGet, List.getD]
    norm_num [sign]
  · simp only [intersectLineTriangle, vecMinus, vecCross, vecDot,
      vecScalarTriple, jsGet, List.getD]
    norm_num [sign]

/-- Witness for `vecCross_oob` on the concrete 3-vectors `[1,2,3]` and
`[4,5,6]`. -/
theorem vecCross_oob_witness : (([1, 2, 3] : List ℝ))[3]? = none :=
  (vecCross_oob [1, 2, 3] [4, 5, 6] rfl rfl).1

end Cube
